import Mathlib

/-!
Shallow embedding of the action-filter core of the
`aws-lambda-action-filter` repository (src/domain.rs and the
`process_actions` function of src/main.rs), together with theorems
checking the specification's claims about it.

Timestamps (`chrono::DateTime<Utc>`) are modelled as integer seconds
since the Unix epoch: the core only ever adds whole-day durations to
them, truncates them to calendar dates, and compares them, and every
boundary discussed by the specification is expressed in seconds.
-/

namespace ActionFilter

/-- Priority level for actions (src/domain.rs): a closed two-value
enumeration with `Urgent` declared before `Normal`. -/
inductive Priority where
  | Urgent : Priority
  | Normal : Priority
deriving DecidableEq

/-- Comparison on `Priority`, mirroring the derived `Ord` of the Rust
enum in src/domain.rs: declaration order gives `Urgent < Normal`. -/
def Priority.cmp : Priority → Priority → Ordering
  | .Urgent, .Urgent => Ordering.eq
  | .Urgent, .Normal => Ordering.lt
  | .Normal, .Urgent => Ordering.gt
  | .Normal, .Normal => Ordering.eq

/-- An action record (src/domain.rs): an entity identifier, the
timestamps of the last and next occurrence, and a priority. -/
structure Action where
  entity_id : String
  last_action_time : Int
  next_action_time : Int
  priority : Priority
deriving DecidableEq

/-- Rust `Ord::cmp` for `Action` (src/domain.rs): orders actions by
`next_action_time` alone, ignoring every other field. -/
def Action.cmp (a b : Action) : Ordering :=
  compare a.next_action_time b.next_action_time

/-- Calendar date of an instant as a whole-day index since the epoch,
modelling chrono's `DateTime::date_naive()`: floor division of the
second count by 86400. For the positive divisor 86400, Lean's euclidean
division `/` on `Int` is exactly floor division. -/
def dateNaive (t : Int) : Int := t / 86400

/-- The 90-day threshold of `process_actions` (src/main.rs): the
calendar date of `today + Duration::days(90)`. -/
def threshold90 (now : Int) : Int := dateNaive (now + 90 * 86400)

/-- The 7-day threshold of `process_actions` (src/main.rs): the
calendar date of `today - Duration::days(7)`. -/
def threshold7 (now : Int) : Int := dateNaive (now - 7 * 86400)

/-- First filter predicate of `process_actions` (src/main.rs): keep an
action when the calendar date of its `next_action_time` is at most the
90-day threshold. -/
def pass90 (now : Int) (a : Action) : Bool :=
  dateNaive a.next_action_time ≤ threshold90 now

/-- Second filter predicate of `process_actions` (src/main.rs): keep an
action when the calendar date of its `last_action_time` is strictly
before the 7-day threshold. -/
def pass7 (now : Int) (a : Action) : Bool :=
  dateNaive a.last_action_time < threshold7 now

/-- The two chained `filter` calls of `process_actions`
(src/main.rs). -/
def filteredActions (now : Int) (input : List Action) : List Action :=
  (input.filter (pass90 now)).filter (pass7 now)

/-- Last-write-wins deduplication by `entity_id` (src/main.rs): the Rust
code folds the filtered list into a `HashMap`, overwriting on every
repeated key, so a record survives exactly when no later record in the
list carries the same `entity_id`. `HashMap::into_values` yields the
survivors in an unspecified order; this model lists them in the order of
the surviving (last) occurrences. -/
def dedupLastWins : List Action → List Action
  | [] => []
  | a :: l =>
      if l.any (fun b => b.entity_id == a.entity_id) then dedupLastWins l
      else a :: dedupLastWins l

/-- Insertion step of a stable comparator sort: the new element is
placed before the first element it does not compare greater than, so
elements comparing equal keep their relative order. -/
def insertSorted (cmp : α → α → Ordering) (a : α) : List α → List α
  | [] => [a]
  | b :: l =>
      if cmp a b = Ordering.gt then b :: insertSorted cmp a l
      else a :: b :: l

/-- Stable comparator sort, modelling Rust's stable `sort_by`
(src/main.rs): any two stable sorts driven by the same comparator
produce the same list, so insertion sort is a faithful model of the
slice merge sort. -/
def sortByCmp (cmp : α → α → Ordering) : List α → List α
  | [] => []
  | a :: l => insertSorted cmp a (sortByCmp cmp l)

/-- The core `process_actions` (src/main.rs), parameterized by the
evaluation instant `now` that the Rust code reads once from
`Utc::now()`: filter by the two date windows, deduplicate keeping the
last occurrence per `entity_id`, and stably sort by priority. -/
def process_actions (now : Int) (input : List Action) : List Action :=
  sortByCmp (fun a b => Priority.cmp a.priority b.priority)
    (dedupLastWins (filteredActions now input))

/-! Helper lemmas about the embedded operations. -/

theorem dateNaive_mono {a b : Int} (h : a ≤ b) : dateNaive a ≤ dateNaive b :=
  Int.ediv_le_ediv (by norm_num) h

/-- The asymmetry of `Priority.cmp` needed for sortedness proofs. -/
theorem Priority.cmp_gt_asymm :
    ∀ p q : Priority, p.cmp q = Ordering.gt → q.cmp p ≠ Ordering.gt := by
  intro p q
  cases p <;> cases q <;> decide

/-- Transitivity of the non-greater relation on `Priority`. -/
theorem Priority.cmp_le_trans :
    ∀ p q r : Priority, p.cmp q ≠ Ordering.gt → q.cmp r ≠ Ordering.gt →
      p.cmp r ≠ Ordering.gt := by
  intro p q r
  cases p <;> cases q <;> cases r <;> decide

/-- If `p` does not compare greater than `q` and `p` is `Normal`, then
`q` is `Normal` as well. -/
theorem Priority.normal_of_le_normal :
    ∀ p q : Priority, p.cmp q ≠ Ordering.gt → p = Priority.Normal →
      q = Priority.Normal := by
  intro p q
  cases p <;> cases q <;> decide

/-- The ordering relation the priority sort establishes between
adjacent output records. -/
def priorityLE (a b : Action) : Prop :=
  Priority.cmp a.priority b.priority ≠ Ordering.gt

theorem insertSorted_perm (cmp : α → α → Ordering) (a : α) :
    ∀ l : List α, List.Perm (insertSorted cmp a l) (a :: l) := by
  intro l
  induction l with
  | nil => exact List.Perm.refl _
  | cons b t ih =>
    by_cases hc : cmp a b = Ordering.gt
    · rw [insertSorted, if_pos hc]
      exact (List.Perm.cons b ih).trans (List.Perm.swap a b t)
    · rw [insertSorted, if_neg hc]

theorem sortByCmp_perm (cmp : α → α → Ordering) :
    ∀ l : List α, List.Perm (sortByCmp cmp l) l := by
  intro l
  induction l with
  | nil => exact List.Perm.refl _
  | cons a t ih =>
    exact (insertSorted_perm cmp a (sortByCmp cmp t)).trans (List.Perm.cons a ih)

theorem pairwise_insertSorted (a : Action) (l : List Action)
    (h : l.Pairwise priorityLE) :
    (insertSorted (fun x y => Priority.cmp x.priority y.priority) a l).Pairwise
      priorityLE := by
  induction l with
  | nil => simp [insertSorted, List.pairwise_cons]
  | cons b t ih =>
    rw [List.pairwise_cons] at h
    obtain ⟨hb, ht⟩ := h
    by_cases hc : Priority.cmp a.priority b.priority = Ordering.gt
    · rw [insertSorted, if_pos hc, List.pairwise_cons]
      constructor
      · intro x hx
        rw [(insertSorted_perm _ a t).mem_iff, List.mem_cons] at hx
        rcases hx with rfl | hx
        · exact Priority.cmp_gt_asymm _ _ hc
        · exact hb x hx
      · exact ih ht
    · rw [insertSorted, if_neg hc, List.pairwise_cons]
      refine ⟨?_, List.pairwise_cons.mpr ⟨hb, ht⟩⟩
      intro x hx
      rw [List.mem_cons] at hx
      rcases hx with rfl | hx
      · exact hc
      · exact Priority.cmp_le_trans _ _ _ hc (hb x hx)

theorem pairwise_sortByCmp (l : List Action) :
    (sortByCmp (fun x y => Priority.cmp x.priority y.priority) l).Pairwise
      priorityLE := by
  induction l with
  | nil => exact List.Pairwise.nil
  | cons a t ih => exact pairwise_insertSorted a _ ih

/-- A list whose adjacent records are ordered by `priorityLE` splits at
some index into an Urgent block followed by a Normal block. -/
theorem pairwise_partition (l : List Action) (h : l.Pairwise priorityLE) :
    ∃ k, (∀ a ∈ l.take k, a.priority = Priority.Urgent) ∧
      (∀ a ∈ l.drop k, a.priority = Priority.Normal) := by
  induction l with
  | nil => exact ⟨0, by simp, by simp⟩
  | cons a t ih =>
    rw [List.pairwise_cons] at h
    obtain ⟨ha, ht⟩ := h
    obtain ⟨k, h1, h2⟩ := ih ht
    cases hp : a.priority with
    | Urgent =>
      refine ⟨k + 1, ?_, ?_⟩
      · intro x hx
        rw [List.take_succ_cons, List.mem_cons] at hx
        rcases hx with rfl | hx
        · exact hp
        · exact h1 x hx
      · intro x hx
        rw [List.drop_succ_cons] at hx
        exact h2 x hx
    | Normal =>
      refine ⟨0, by simp, ?_⟩
      intro x hx
      rw [List.drop_zero, List.mem_cons] at hx
      rcases hx with rfl | hx
      · exact hp
      · exact Priority.normal_of_le_normal _ _ (ha x hx) hp

theorem mem_of_mem_dedupLastWins {a : Action} :
    ∀ {l : List Action}, a ∈ dedupLastWins l → a ∈ l := by
  intro l
  induction l with
  | nil => intro h; exact absurd h (List.not_mem_nil a)
  | cons b t ih =>
    intro h
    simp only [dedupLastWins] at h
    by_cases hc : t.any (fun x => x.entity_id == b.entity_id) = true
    · rw [if_pos hc] at h
      exact List.mem_cons_of_mem b (ih h)
    · rw [if_neg hc, List.mem_cons] at h
      rcases h with rfl | h
      · exact List.mem_cons_self a t
      · exact List.mem_cons_of_mem b (ih h)

theorem dedupLastWins_keys_nodup :
    ∀ l : List Action, ((dedupLastWins l).map (fun a => a.entity_id)).Nodup := by
  intro l
  induction l with
  | nil => simp [dedupLastWins]
  | cons b t ih =>
    simp only [dedupLastWins]
    by_cases hc : t.any (fun x => x.entity_id == b.entity_id) = true
    · rw [if_pos hc]; exact ih
    · rw [if_neg hc, List.map_cons, List.nodup_cons]
      refine ⟨?_, ih⟩
      intro hmem
      rw [List.mem_map] at hmem
      obtain ⟨x, hx, hex⟩ := hmem
      exact hc (List.any_eq_true.mpr
        ⟨x, mem_of_mem_dedupLastWins hx, beq_iff_eq.mpr hex⟩)

theorem dedupLastWins_keys_toFinset :
    ∀ l : List Action,
      ((dedupLastWins l).map (fun a => a.entity_id)).toFinset =
        (l.map (fun a => a.entity_id)).toFinset := by
  intro l
  induction l with
  | nil => rfl
  | cons b t ih =>
    simp only [dedupLastWins]
    by_cases hc : t.any (fun x => x.entity_id == b.entity_id) = true
    · rw [if_pos hc, ih, List.map_cons, List.toFinset_cons]
      rw [List.any_eq_true] at hc
      obtain ⟨x, hxt, hx⟩ := hc
      have hb : b.entity_id ∈ (t.map (fun a => a.entity_id)).toFinset := by
        rw [List.mem_toFinset, List.mem_map]
        exact ⟨x, hxt, beq_iff_eq.mp hx⟩
      rw [Finset.insert_eq_self.mpr hb]
    · rw [if_neg hc, List.map_cons, List.toFinset_cons, List.map_cons,
        List.toFinset_cons, ih]

/-- Filtering the deduplicated list for one `entity_id` returns exactly
the last record with that id of the original list, when there is one. -/
theorem dedupLastWins_filter (e : String) :
    ∀ l : List Action,
      (dedupLastWins l).filter (fun b => b.entity_id == e) =
        ((l.filter (fun b => b.entity_id == e)).getLast?).toList := by
  intro l
  induction l with
  | nil => rfl
  | cons b t ih =>
    simp only [dedupLastWins]
    by_cases hc : t.any (fun x => x.entity_id == b.entity_id) = true
    · rw [if_pos hc]
      by_cases he : (b.entity_id == e) = true
      · rw [ih, List.filter_cons_of_pos (p := fun x : Action => x.entity_id == e) he]
        rw [List.any_eq_true] at hc
        obtain ⟨x, hxt, hx⟩ := hc
        have hxe : (x.entity_id == e) = true := by
          rw [beq_iff_eq] at hx ⊢
          rw [hx, beq_iff_eq.mp he]
        have hne : t.filter (fun b => b.entity_id == e) ≠ [] := by
          intro hnil
          rw [List.filter_eq_nil_iff] at hnil
          exact hnil x hxt hxe
        cases hft : t.filter (fun b => b.entity_id == e) with
        | nil => exact absurd hft hne
        | cons c cs => rw [List.getLast?_cons_cons]
      · rw [ih, List.filter_cons_of_neg (p := fun x : Action => x.entity_id == e) he]
    · rw [if_neg hc]
      by_cases he : (b.entity_id == e) = true
      · have hft : t.filter (fun x => x.entity_id == e) = [] := by
          rw [List.filter_eq_nil_iff]
          intro x hxt hx
          apply hc
          rw [List.any_eq_true]
          refine ⟨x, hxt, ?_⟩
          rw [beq_iff_eq] at hx ⊢
          rw [hx, beq_iff_eq.mp he]
        rw [List.filter_cons_of_pos (p := fun x : Action => x.entity_id == e) he, ih, hft,
          List.filter_cons_of_pos (p := fun x : Action => x.entity_id == e) he, hft]
        rfl
      · rw [List.filter_cons_of_neg (p := fun x : Action => x.entity_id == e) he, ih,
          List.filter_cons_of_neg (p := fun x : Action => x.entity_id == e) he]

/-- Every record of the output came through both time-window filters. -/
theorem mem_filtered_of_mem_process {now : Int} {input : List Action}
    {a : Action} (h : a ∈ process_actions now input) :
    a ∈ filteredActions now input := by
  have h1 : a ∈ dedupLastWins (filteredActions now input) :=
    (sortByCmp_perm _ _).mem_iff.mp h
  exact mem_of_mem_dedupLastWins h1

theorem pass_of_mem_filtered {now : Int} {input : List Action} {a : Action}
    (h : a ∈ filteredActions now input) :
    a ∈ input ∧ pass90 now a = true ∧ pass7 now a = true := by
  rw [filteredActions] at h
  have h7 := List.of_mem_filter h
  have h90m := List.mem_of_mem_filter h
  exact ⟨List.mem_of_mem_filter h90m, List.of_mem_filter h90m, h7⟩

/-! Concrete records used to instantiate the claim theorems. All of them
are evaluated at the instant `now = 0`, i.e. midnight at the epoch. -/

/-- A record whose `last_action_time` is exactly `now - 7 days` for
`now = 0` and whose `next_action_time` is well inside the 90-day
window. -/
def actBoundary7 : Action :=
  ⟨"boundary7", (-7) * 86400, 0, Priority.Normal⟩

/-- A record one second past the 90-day boundary for `now = 0`, on the
same calendar date as the boundary, and old enough to pass the 7-day
filter. -/
def actPast90 : Action :=
  ⟨"past90", (-8) * 86400, 90 * 86400 + 1, Priority.Normal⟩

/-- A record exactly at the 90-day boundary for `now = 0`. -/
def actAt90 : Action :=
  ⟨"at90", (-8) * 86400, 90 * 86400, Priority.Normal⟩

/-- First record of the dedup-conflict scenario of the spec: entity
`duplicate`, priority `Normal`. -/
def dupNormal : Action :=
  ⟨"duplicate", (-40) * 86400, 10 * 86400, Priority.Normal⟩

/-- Second record of the dedup-conflict scenario of the spec: same
entity and timestamps, priority `Urgent`. -/
def dupUrgent : Action :=
  ⟨"duplicate", (-40) * 86400, 10 * 86400, Priority.Urgent⟩

/-- A record passing both filters at `now = 0`, used to exhibit
survivors of concrete runs. -/
def actKeep : Action :=
  ⟨"keep", (-10) * 86400, 5 * 86400, Priority.Urgent⟩

/-! Claim theorems. -/

/-- C1, counterexample: the claim says an action whose
`last_action_time` is exactly `now - 7 days` is retained by the
time-window filter. The code compares calendar dates with a strict `<`
(src/main.rs, and its own unit test asserts the exclusion), so at
`now = 0` the record `actBoundary7`, whose `last_action_time` is exactly
`now - 7` days and whose `next_action_time` is within the 90-day window,
is dropped: `process_actions` returns the empty list. -/
theorem claim1_counterexample :
    actBoundary7.last_action_time = 0 - 7 * 86400 ∧
      pass90 0 actBoundary7 = true ∧
      process_actions 0 [actBoundary7] = [] := by
  refine ⟨by decide, by decide, by decide⟩

/-- C1 (amended): the 7-day window is strict at date granularity — every
action whose `last_action_time` is at or after `now - 7 days` (so in
particular one at exactly `now - 7 days`, and any one performed less
than 7 days ago) is excluded from the output of `process_actions`. -/
theorem claim1_last_action_boundary_excluded (now : Int)
    (input : List Action) (a : Action)
    (h : now - 7 * 86400 ≤ a.last_action_time) :
    a ∉ process_actions now input := by
  intro hmem
  have hf := pass_of_mem_filtered (mem_filtered_of_mem_process hmem)
  have h7 : dateNaive a.last_action_time < dateNaive (now - 7 * 86400) := by
    have hb := hf.2.2
    rw [pass7, threshold7] at hb
    exact of_decide_eq_true hb
  have hmono := dateNaive_mono h
  omega

/-- C1, witness for the amended theorem at `now = 0` and the concrete
boundary record. -/
theorem claim1_witness :
    (0 : Int) - 7 * 86400 ≤ actBoundary7.last_action_time ∧
      actBoundary7 ∉ process_actions 0 [actBoundary7] :=
  ⟨by decide, claim1_last_action_boundary_excluded 0 [actBoundary7]
    actBoundary7 (by decide)⟩

/-- C2, counterexample: the claim says an action whose
`next_action_time` is `now + 90 days + 1 second` is excluded. The code
compares calendar dates, and at `now = 0` the instant
`90 * 86400 + 1` lies on the same UTC calendar date as the 90-day
threshold, so the record `actPast90` is retained. -/
theorem claim2_counterexample :
    actPast90.next_action_time = 0 + 90 * 86400 + 1 ∧
      process_actions 0 [actPast90] = [actPast90] := by
  refine ⟨by decide, by decide⟩

/-- C2 (amended): the 90-day window is inclusive at date granularity —
every action whose `next_action_time` is at most `now + 90 days` (so in
particular one at exactly `now + 90 days`) passes the 90-day filter; an
action at `now + 90 days + 1 second` is excluded only when that instant
falls on a later UTC calendar date than `now + 90 days`. -/
theorem claim2_next_within_90_passes (now : Int) (a : Action)
    (h : a.next_action_time ≤ now + 90 * 86400) :
    pass90 now a = true := by
  rw [pass90, threshold90]
  exact decide_eq_true (dateNaive_mono h)

/-- C2, witness for the amended theorem at `now = 0` and a record
exactly at the 90-day boundary. -/
theorem claim2_witness :
    actAt90.next_action_time ≤ (0 : Int) + 90 * 86400 ∧
      pass90 0 actAt90 = true :=
  ⟨by decide, claim2_next_within_90_passes 0 actAt90 (by decide)⟩

/-- C3: last-write-wins deduplication. Whenever some record with
`entity_id = e` passes both time-window filters, the output of
`process_actions` contains exactly one record with that id, and it is
field-for-field the record appearing last in input order among the
passing records with that id (`filteredActions` preserves input order,
so the `getLast?` of its id-filtered sublist is that record). In
particular the kept record's own priority survives unchanged. -/
theorem claim3_last_write_wins (now : Int) (input : List Action)
    (e : String)
    (h : (filteredActions now input).any (fun b => b.entity_id == e) = true) :
    ∃ a : Action,
      ((filteredActions now input).filter
        (fun b => b.entity_id == e)).getLast? = some a ∧
      (process_actions now input).filter (fun b => b.entity_id == e) = [a] := by
  have hne : (filteredActions now input).filter
      (fun b => b.entity_id == e) ≠ [] := by
    intro hnil
    rw [List.filter_eq_nil_iff] at hnil
    rw [List.any_eq_true] at h
    obtain ⟨x, hx, hxe⟩ := h
    exact hnil x hx hxe
  have hdf := dedupLastWins_filter e (filteredActions now input)
  have hperm : List.Perm
      ((process_actions now input).filter (fun b => b.entity_id == e))
      ((dedupLastWins (filteredActions now input)).filter
        (fun b => b.entity_id == e)) :=
    List.Perm.filter _ (sortByCmp_perm _ _)
  cases hopt : ((filteredActions now input).filter
      (fun b => b.entity_id == e)).getLast? with
  | none =>
    rw [List.getLast?_eq_none_iff] at hopt
    exact absurd hopt hne
  | some a =>
    refine ⟨a, rfl, ?_⟩
    rw [hdf, hopt, Option.toList_some] at hperm
    exact List.perm_singleton.mp hperm

/-- C3, witness: the dedup-conflict scenario of the spec. Both records
carry `entity_id = "duplicate"` and pass the filters at `now = 0`; the
output keeps exactly the second (Urgent) record. -/
theorem claim3_witness :
    (filteredActions 0 [dupNormal, dupUrgent]).any
      (fun b => b.entity_id == "duplicate") = true ∧
    ∃ a : Action,
      ((filteredActions 0 [dupNormal, dupUrgent]).filter
        (fun b => b.entity_id == "duplicate")).getLast? = some a ∧
      (process_actions 0 [dupNormal, dupUrgent]).filter
        (fun b => b.entity_id == "duplicate") = [a] :=
  ⟨by decide, claim3_last_write_wins 0 [dupNormal, dupUrgent] "duplicate"
    (by decide)⟩

/-- C4: partition invariant. Every output of `process_actions` splits at
some index `k` into a block of `Urgent` records followed by a block of
`Normal` records, under the order `Urgent < Normal` of `Priority.cmp`;
no `Normal` record ever precedes an `Urgent` one. -/
theorem claim4_priority_partition (now : Int) (input : List Action) :
    ∃ k,
      (∀ a ∈ (process_actions now input).take k,
        a.priority = Priority.Urgent) ∧
      (∀ a ∈ (process_actions now input).drop k,
        a.priority = Priority.Normal) :=
  pairwise_partition _ (pairwise_sortByCmp _)

/-- C4, witness: the partition invariant applied to a concrete run with
one Normal and one Urgent survivor. -/
theorem claim4_witness :
    ∃ k,
      (∀ a ∈ (process_actions 0 [actAt90, actKeep]).take k,
        a.priority = Priority.Urgent) ∧
      (∀ a ∈ (process_actions 0 [actAt90, actKeep]).drop k,
        a.priority = Priority.Normal) :=
  claim4_priority_partition 0 [actAt90, actKeep]

/-- C5: deduplication cardinality. The output of `process_actions` never
contains two records with the same `entity_id` (its list of ids has no
duplicates), and the number of distinct `entity_id` values in the output
equals the number of distinct `entity_id` values among the records that
pass the two time-window filters. -/
theorem claim5_dedup_cardinality (now : Int) (input : List Action) :
    ((process_actions now input).map (fun a => a.entity_id)).Nodup ∧
    ((process_actions now input).map (fun a => a.entity_id)).toFinset.card =
      ((filteredActions now input).map
        (fun a => a.entity_id)).toFinset.card := by
  have hperm : List.Perm
      ((process_actions now input).map (fun a => a.entity_id))
      ((dedupLastWins (filteredActions now input)).map
        (fun a => a.entity_id)) :=
    List.Perm.map _ (sortByCmp_perm _ _)
  constructor
  · exact hperm.nodup_iff.mpr (dedupLastWins_keys_nodup _)
  · rw [List.toFinset_eq_of_perm _ _ hperm, dedupLastWins_keys_toFinset]

/-- C6: both window predicates compare calendar dates, not full
timestamps — two actions whose relevant timestamps fall on the same UTC
calendar date are treated identically by each filter, regardless of the
time of day within that date. -/
theorem claim6_date_granularity (now : Int) (a b : Action) :
    (dateNaive a.next_action_time = dateNaive b.next_action_time →
      pass90 now a = pass90 now b) ∧
    (dateNaive a.last_action_time = dateNaive b.last_action_time →
      pass7 now a = pass7 now b) := by
  constructor
  · intro h
    rw [pass90, pass90, h]
  · intro h
    rw [pass7, pass7, h]

/-- C6, witness: two pairs of records differing only in time of day
within the same calendar dates receive identical filter verdicts. -/
theorem claim6_witness :
    pass90 0 ⟨"x", (-10) * 86400, 90 * 86400, Priority.Normal⟩ =
      pass90 0 ⟨"y", (-10) * 86400, 90 * 86400 + 3600, Priority.Normal⟩ ∧
    pass7 0 ⟨"x", (-8) * 86400, 0, Priority.Normal⟩ =
      pass7 0 ⟨"y", (-8) * 86400 + 3600, 0, Priority.Normal⟩ :=
  ⟨(claim6_date_granularity 0 _ _).1 (by decide),
   (claim6_date_granularity 0 _ _).2 (by decide)⟩

/-- C7: frame property. Every record in the output of `process_actions`
is field-for-field one of the input records: the core never mutates a
record, it only selects, reorders, or discards whole records. -/
theorem claim7_no_mutation (now : Int) (input : List Action) (a : Action)
    (h : a ∈ process_actions now input) : a ∈ input :=
  (pass_of_mem_filtered (mem_filtered_of_mem_process h)).1

/-- C7, witness: a surviving record of a concrete run is an input
record. -/
theorem claim7_witness :
    actKeep ∈ process_actions 0 [actKeep] ∧ actKeep ∈ [actKeep] :=
  ⟨by decide, claim7_no_mutation 0 [actKeep] actKeep (by decide)⟩

/-- C8: idempotence of re-filtering. Re-applying the two time-window
predicates with the same evaluation instant `now` to the output of
`process_actions` removes nothing: every surviving record already
satisfies both window predicates. -/
theorem claim8_refilter_idempotent (now : Int) (input : List Action) :
    filteredActions now (process_actions now input) =
      process_actions now input := by
  rw [filteredActions]
  have h90 : (process_actions now input).filter (pass90 now) =
      process_actions now input := by
    rw [List.filter_eq_self]
    intro a ha
    exact (pass_of_mem_filtered (mem_filtered_of_mem_process ha)).2.1
  rw [h90, List.filter_eq_self]
  intro a ha
  exact (pass_of_mem_filtered (mem_filtered_of_mem_process ha)).2.2

/-- C9: totality on the empty input. `process_actions` is a total Lean
function by construction (it is defined by structural recursion and
total library operations, so it never fails on any well-typed input),
and on the empty sequence it returns the empty sequence. -/
theorem claim9_total_empty (now : Int) : process_actions now [] = [] := rfl

/-- C10: the `Ord` implementation on `Action` compares only
`next_action_time` — any two actions with equal `next_action_time`
compare `eq` even when every other field differs, so the ordering is
coarser than structural equality. (`process_actions` never mentions
`Action.cmp`; its sort is driven by `Priority.cmp` alone.) -/
theorem claim10_action_cmp_next_time_only :
    (∀ a b : Action, a.next_action_time = b.next_action_time →
      Action.cmp a b = Ordering.eq) ∧
    (∃ a b : Action, Action.cmp a b = Ordering.eq ∧ a ≠ b) := by
  constructor
  · intro a b h
    rw [Action.cmp, h]
    simp [compare, compareOfLessAndEq]
  · exact ⟨⟨"a", 0, 5, Priority.Urgent⟩, ⟨"b", 1, 5, Priority.Normal⟩,
      by decide, by decide⟩

/-- C10, witness: two records agreeing only on `next_action_time`
compare `eq`. -/
theorem claim10_witness :
    Action.cmp ⟨"a", 0, 5, Priority.Urgent⟩ ⟨"b", 1, 5, Priority.Normal⟩ =
      Ordering.eq :=
  claim10_action_cmp_next_time_only.1 _ _ rfl

end ActionFilter
